import Mathlib

/-!
Shallow embedding of the juniper GraphQL library core:
the `Value`/`InputValue` data model (`src/juniper/src/value.rs`),
the introspection entry points (`src/juniper/src/introspection/mod.rs`),
and the semantics of the code generated for GraphQL object types
(`src/juniper_codegen/src/graphql_object/mod.rs`).

Rust `f64` payloads are embedded as `F64`: either `NaN` or a finite number
(represented by a rational).  IEEE-754 equality — the relation used by the
derived `PartialEq` on `Value` — makes `NaN` unequal to every float, itself
included; on finite values it agrees with numeric equality.  `OrderMap` is
embedded as an insertion-ordered association list, with the ordermap crate's
`insert` (replace in place, else append) and order-insensitive `PartialEq`
(length check plus per-key lookup).
-/

namespace Juniper

/-- An `f64` payload: IEEE-754 NaN or a finite number (as a rational). -/
inductive F64 where
  | NaN : F64
  | Finite : ℚ → F64
deriving DecidableEq

/-- IEEE-754 equality on `f64`, as used by Rust `==` on `f64` payloads:
`NaN` is unequal to everything (itself included); finite values compare
numerically. -/
def f64beq : F64 → F64 → Bool
  | .NaN, _ => false
  | _, .NaN => false
  | .Finite a, .Finite b => a == b

/-- The Rust `i32` payload type (no arithmetic is performed on stored
integers anywhere in the embedded fragment, so the 32-bit range never
comes into play). -/
abbrev I32 := Int

/-- Alias for `String`, usable inside the `Value` namespace where the
constructor name `Value.String` shadows the type. -/
abbrev Str := String

/-- The `Value` enum of `src/juniper/src/value.rs` (lines 16–26): the
serializable result tree.  `Object` is an insertion-ordered map embedded as
a list of entries. -/
inductive Value where
  | Null : Value
  | Int : Int → Value
  | Float : F64 → Value
  | String : String → Value
  | Boolean : Bool → Value
  | List : List Value → Value
  | Object : List (String × Value) → Value

/-- A list of `Value`s (alias usable inside the `Value` namespace). -/
abbrev ValueList := List Value

/-- The entry list of an insertion-ordered `OrderMap<String, Value>`. -/
abbrev Entries := List (String × Value)

/-- `Value::null` constructor. -/
def Value.null : Value := .Null

/-- `Value::int` constructor. -/
def Value.int (i : I32) : Value := .Int i

/-- `Value::float` constructor. -/
def Value.float (f : F64) : Value := .Float f

/-- `Value::string` constructor (the `AsRef<str>` argument arrives as an
owned `String`). -/
def Value.string (s : Str) : Value := .String s

/-- `Value::boolean` constructor. -/
def Value.boolean (b : Bool) : Value := .Boolean b

/-- `Value::list` constructor. -/
def Value.list (l : ValueList) : Value := .List l

/-- `From<i32> for Value` (value.rs lines 165–169): delegates to `Value::int`. -/
def Value.fromInt (i : I32) : Value := Value.int i

/-- `From<f64> for Value` (value.rs lines 171–175): delegates to `Value::float`. -/
def Value.fromFloat (f : F64) : Value := Value.float f

-- DISCRIMINATORS (value.rs lines 69–118)

/-- `Value::is_null`. -/
def Value.is_null : Value → Bool
  | .Null => true
  | _ => false

/-- `Value::as_float_value`. -/
def Value.as_float_value : Value → Option F64
  | .Float f => some f
  | _ => none

/-- `Value::as_object_value`. -/
def Value.as_object_value : Value → Option Entries
  | .Object o => some o
  | _ => none

/-- `Value::as_mut_object_value`: the mutable borrow projects the same
payload as `as_object_value`; mutation itself is outside the embedded
fragment, so the projection is what is embedded. -/
def Value.as_mut_object_value : Value → Option Entries
  | .Object o => some o
  | _ => none

/-- `Value::as_list_value`. -/
def Value.as_list_value : Value → Option ValueList
  | .List l => some l
  | _ => none

/-- `Value::as_string_value`. -/
def Value.as_string_value : Value → Option Str
  | .String s => some s
  | _ => none

/-- A source position (byte index, line, column), the location metadata
attached by the parser to `InputValue` nodes. -/
structure SourcePosition where
  index : Nat
  line : Nat
  col : Nat
deriving DecidableEq

/-- Modelled from the spec: `parser::Spanning`, which attaches "location
metadata per node (for diagnostics)"; the parser module defining it is not
under `src/`.  Per the spec, the `Value → InputValue` conversion produces
"unlocated" nodes whose "locations are synthesized as absent", so the span
is optional and an unlocated node carries `none`. -/
structure Spanning (α : Type) where
  item : α
  span : Option (SourcePosition × SourcePosition)
deriving DecidableEq

/-- `Spanning::unlocated`: wrap a node with absent location metadata. -/
def Spanning.unlocated {α : Type} (a : α) : Spanning α := ⟨a, none⟩

/-- The `InputValue` tree (`ast::InputValue`): structurally parallel to
`Value` but with `Enum`/`Variable` nodes and per-node location metadata.
The variant shapes for `List` and `Object` are pinned by their use in
`Value::to_input_value` (value.rs lines 120–145); `Enum` and `Variable`
are the two extra variants named by the spec and by value.rs's own doc
comment ("can not contain enum values or variables"). -/
inductive InputValue where
  | Null : InputValue
  | Int : Int → InputValue
  | Float : F64 → InputValue
  | String : String → InputValue
  | Boolean : Bool → InputValue
  | Enum : String → InputValue
  | Variable : String → InputValue
  | List : List (Spanning InputValue) → InputValue
  | Object : List (Spanning String × Spanning InputValue) → InputValue

mutual

/-- `ToInputValue for Value::to_input_value` (value.rs lines 120–145):
leaves map variant-wise; list elements and object keys/values are wrapped
with `Spanning::unlocated`. -/
def Value.toInputValue : Value → InputValue
  | .Null => .Null
  | .Int i => .Int i
  | .Float f => .Float f
  | .String s => .String s
  | .Boolean b => .Boolean b
  | .List l => .List (toInputValueList l)
  | .Object o => .Object (toInputValueObject o)

/-- The element-wise conversion of `Value::to_input_value` on a list
payload (the `l.iter().map(...)` of value.rs line 128). -/
def toInputValueList : List Value → List (Spanning InputValue)
  | [] => []
  | v :: rest => Spanning.unlocated v.toInputValue :: toInputValueList rest

/-- The entry-wise conversion of `Value::to_input_value` on an object
payload (the `o.iter().map(...)` of value.rs line 133). -/
def toInputValueObject : Entries → List (Spanning String × Spanning InputValue)
  | [] => []
  | (k, v) :: rest =>
      (Spanning.unlocated k, Spanning.unlocated v.toInputValue) :: toInputValueObject rest

end

mutual

/-- Modelled from the spec: the `InputValue → Value` direction ("An
`InputValue` converts deterministically to a `Value` once fully resolved
(variables substituted, enums mapped)"); the conversion function itself is
not under `src/`.  An unresolved `Enum` or `Variable` node has no `Value`
yet (mapping it needs type information, substitution needs bindings), so
the conversion is partial exactly there; location metadata is dropped. -/
def InputValue.toValue : InputValue → Option Value
  | .Null => some .Null
  | .Int i => some (.Int i)
  | .Float f => some (.Float f)
  | .String s => some (.String s)
  | .Boolean b => some (.Boolean b)
  | .Enum _ => none
  | .Variable _ => none
  | .List l => (toValueList l).map Value.List
  | .Object o => (toValueObject o).map Value.Object

/-- Element-wise `InputValue → Value` conversion of a list payload,
failing as a unit if any element is unresolved. -/
def toValueList : List (Spanning InputValue) → Option (List Value)
  | [] => some []
  | ⟨iv, _⟩ :: rest =>
      match iv.toValue, toValueList rest with
      | some v, some vs => some (v :: vs)
      | _, _ => none

/-- Entry-wise `InputValue → Value` conversion of an object payload. -/
def toValueObject :
    List (Spanning String × Spanning InputValue) → Option Entries
  | [] => some []
  | (⟨k, _⟩, ⟨iv, _⟩) :: rest =>
      match iv.toValue, toValueObject rest with
      | some v, some vs => some ((k, v) :: vs)
      | _, _ => none

end

mutual

/-- `true` iff an `InputValue` tree contains no `Enum` and no `Variable`
node. -/
def InputValue.enumVarFree : InputValue → Bool
  | .Enum _ => false
  | .Variable _ => false
  | .List l => enumVarFreeList l
  | .Object o => enumVarFreeObject o
  | _ => true

/-- `enumVarFree` over a list payload. -/
def enumVarFreeList : List (Spanning InputValue) → Bool
  | [] => true
  | ⟨iv, _⟩ :: rest => iv.enumVarFree && enumVarFreeList rest

/-- `enumVarFree` over an object payload. -/
def enumVarFreeObject : List (Spanning String × Spanning InputValue) → Bool
  | [] => true
  | (_, ⟨iv, _⟩) :: rest => iv.enumVarFree && enumVarFreeObject rest

end

mutual

/-- `true` iff every `Spanning` node inside an `InputValue` tree carries an
absent location (is unlocated). -/
def InputValue.allUnlocated : InputValue → Bool
  | .List l => allUnlocatedList l
  | .Object o => allUnlocatedObject o
  | _ => true

/-- `allUnlocated` over a list payload: each wrapper is unlocated and its
item recursively so. -/
def allUnlocatedList : List (Spanning InputValue) → Bool
  | [] => true
  | ⟨iv, sp⟩ :: rest => sp.isNone && iv.allUnlocated && allUnlocatedList rest

/-- `allUnlocated` over an object payload: key and value wrappers are
unlocated and the value item recursively so. -/
def allUnlocatedObject : List (Spanning String × Spanning InputValue) → Bool
  | [] => true
  | (⟨_, ksp⟩, ⟨iv, vsp⟩) :: rest =>
      ksp.isNone && vsp.isNone && iv.allUnlocated && allUnlocatedObject rest

end

/-- A member of a `List` payload is smaller than the wrapping `Value.List`. -/
theorem sizeOf_lt_of_mem_list {v : Value} {l : List Value} (h : v ∈ l) :
    sizeOf v < sizeOf (Value.List l) := by
  have := List.sizeOf_lt_of_mem h
  simp only [Value.List.sizeOf_spec]
  omega

/-- The value of a member entry of an `Object` payload is smaller than the
wrapping `Value.Object`. -/
theorem sizeOf_lt_of_mem_object {p : String × Value} {o : Entries} (h : p ∈ o) :
    sizeOf p.2 < sizeOf (Value.Object o) := by
  have h1 := List.sizeOf_lt_of_mem h
  obtain ⟨a, b⟩ := p
  simp only [Value.Object.sizeOf_spec]
  simp only [Prod.mk.sizeOf_spec] at h1
  omega

/-- Structural induction principle for `Value` exposing membership in the
nested `List`/`Object` payloads. -/
theorem Value.inductionOn {P : Value → Prop}
    (hnull : P .Null) (hint : ∀ i, P (.Int i)) (hfloat : ∀ f, P (.Float f))
    (hstr : ∀ s, P (.String s)) (hbool : ∀ b, P (.Boolean b))
    (hlist : ∀ l, (∀ v ∈ l, P v) → P (.List l))
    (hobj : ∀ o, (∀ p ∈ o, P p.2) → P (.Object o)) :
    ∀ v, P v
  | .Null => hnull
  | .Int i => hint i
  | .Float f => hfloat f
  | .String s => hstr s
  | .Boolean b => hbool b
  | .List l => hlist l (fun v hv =>
      Value.inductionOn hnull hint hfloat hstr hbool hlist hobj v)
  | .Object o => hobj o (fun p hp =>
      Value.inductionOn hnull hint hfloat hstr hbool hlist hobj p.2)
termination_by v => sizeOf v
decreasing_by
  · exact sizeOf_lt_of_mem_list hv
  · exact sizeOf_lt_of_mem_object hp

/-- Round trip over a list payload, given the round trip of each element. -/
theorem toValueList_roundtrip {l : List Value}
    (ih : ∀ v ∈ l, (Value.toInputValue v).toValue = some v) :
    toValueList (toInputValueList l) = some l := by
  induction l with
  | nil => rfl
  | cons v rest ihr =>
    have hv : (Value.toInputValue v).toValue = some v := ih v (by simp)
    have hr : toValueList (toInputValueList rest) = some rest :=
      ihr (fun w hw => ih w (by simp [hw]))
    simp [toInputValueList, toValueList, Spanning.unlocated, hv, hr]

/-- Round trip over an object payload, given the round trip of each entry
value. -/
theorem toValueObject_roundtrip {o : Entries}
    (ih : ∀ p ∈ o, (Value.toInputValue p.2).toValue = some p.2) :
    toValueObject (toInputValueObject o) = some o := by
  induction o with
  | nil => rfl
  | cons p rest ihr =>
    obtain ⟨k, v⟩ := p
    have hv : (Value.toInputValue v).toValue = some v := ih (k, v) (by simp)
    have hr : toValueObject (toInputValueObject rest) = some rest :=
      ihr (fun q hq => ih q (by simp [hq]))
    simp [toInputValueObject, toValueObject, Spanning.unlocated, hv, hr]

/-- The `Value → InputValue → Value` round trip is the identity. -/
theorem toInputValue_toValue (v : Value) :
    (Value.toInputValue v).toValue = some v := by
  induction v using Value.inductionOn with
  | hnull => rfl
  | hint i => rfl
  | hfloat f => rfl
  | hstr s => rfl
  | hbool b => rfl
  | hlist l ih =>
    simp [Value.toInputValue, InputValue.toValue, toValueList_roundtrip ih]
  | hobj o ih =>
    simp [Value.toInputValue, InputValue.toValue, toValueObject_roundtrip ih]

/-- `to_input_value` never emits an `Enum` or `Variable` node. -/
theorem toInputValue_enumVarFree (v : Value) :
    (Value.toInputValue v).enumVarFree = true := by
  induction v using Value.inductionOn with
  | hnull => rfl
  | hint i => rfl
  | hfloat f => rfl
  | hstr s => rfl
  | hbool b => rfl
  | hlist l ih =>
    simp only [Value.toInputValue, InputValue.enumVarFree]
    induction l with
    | nil => rfl
    | cons v rest ihr =>
      have hv := ih v (by simp)
      have hr := ihr (fun w hw => ih w (by simp [hw]))
      simp [toInputValueList, enumVarFreeList, Spanning.unlocated, hv, hr]
  | hobj o ih =>
    simp only [Value.toInputValue, InputValue.enumVarFree]
    induction o with
    | nil => rfl
    | cons p rest ihr =>
      obtain ⟨k, v⟩ := p
      have hv := ih (k, v) (by simp)
      have hr := ihr (fun q hq => ih q (by simp [hq]))
      simp [toInputValueObject, enumVarFreeObject, Spanning.unlocated, hv, hr]

/-- Every `Spanning` wrapper emitted by `to_input_value` is unlocated. -/
theorem toInputValue_allUnlocated (v : Value) :
    (Value.toInputValue v).allUnlocated = true := by
  induction v using Value.inductionOn with
  | hnull => rfl
  | hint i => rfl
  | hfloat f => rfl
  | hstr s => rfl
  | hbool b => rfl
  | hlist l ih =>
    simp only [Value.toInputValue, InputValue.allUnlocated]
    induction l with
    | nil => rfl
    | cons v rest ihr =>
      have hv := ih v (by simp)
      have hr := ihr (fun w hw => ih w (by simp [hw]))
      simp [toInputValueList, allUnlocatedList, Spanning.unlocated, hv, hr]
  | hobj o ih =>
    simp only [Value.toInputValue, InputValue.allUnlocated]
    induction o with
    | nil => rfl
    | cons p rest ihr =>
      obtain ⟨k, v⟩ := p
      have hv := ih (k, v) (by simp)
      have hr := ihr (fun q hq => ih q (by simp [hq]))
      simp [toInputValueObject, allUnlocatedObject, Spanning.unlocated, hv, hr]

/-- Is this `f64` payload a NaN? -/
def F64.isNaN : F64 → Bool
  | .NaN => true
  | .Finite _ => false

/-- `OrderMap::get` on an entry list: the value of the first entry with the
given key (keys are unique in a real map, so "first" is "the"). -/
def omLookup : Entries → String → Option Value
  | [], _ => none
  | (k0, v0) :: rest, k => if k0 == k then some v0 else omLookup rest k

/-- A value found by `omLookup` is smaller than the entry list. -/
theorem omLookup_sizeOf : ∀ {m : Entries} {k : String} {v : Value},
    omLookup m k = some v → sizeOf v < sizeOf m := by
  intro m
  induction m with
  | nil => intro k v h; simp [omLookup] at h
  | cons p rest ih =>
    intro k v h
    obtain ⟨k0, v0⟩ := p
    by_cases hk : (k0 == k) = true
    · simp [omLookup, hk] at h
      subst h
      simp only [List.cons.sizeOf_spec, Prod.mk.sizeOf_spec]
      omega
    · simp [omLookup, hk] at h
      have := ih h
      simp only [List.cons.sizeOf_spec, Prod.mk.sizeOf_spec]
      omega

mutual

/-- The derived `PartialEq` on `Value` (the `#[derive(PartialEq)]` of
value.rs line 16): variant-wise structural comparison, with `f64` payloads
compared by IEEE-754 equality, `Vec` payloads compared pairwise, and
`OrderMap` payloads compared by the ordermap crate's `PartialEq`
(equal length, and every left entry's key maps to an equal value on the
right). -/
def valueBeq : Value → Value → Bool
  | .Null, .Null => true
  | .Int a, .Int b => a == b
  | .Float a, .Float b => f64beq a b
  | .String a, .String b => a == b
  | .Boolean a, .Boolean b => a == b
  | .List a, .List b => listBeq a b
  | .Object a, .Object b => (a.length == b.length) && objEntriesBeq a b
  | _, _ => false
termination_by a b => sizeOf a + sizeOf b
decreasing_by
  · simp only [Value.List.sizeOf_spec]; omega
  · simp only [Value.Object.sizeOf_spec]; omega

/-- `Vec<Value>` equality: same length, pairwise `valueBeq`. -/
def listBeq : List Value → List Value → Bool
  | [], [] => true
  | a :: as, b :: bs => valueBeq a b && listBeq as bs
  | _, _ => false
termination_by a b => sizeOf a + sizeOf b
decreasing_by
  · simp only [List.cons.sizeOf_spec]; omega
  · simp only [List.cons.sizeOf_spec]; omega

/-- The entry sweep of ordermap `PartialEq`: every left entry's value
compares equal to the right map's value at the same key. -/
def objEntriesBeq : Entries → Entries → Bool
  | [], _ => true
  | (k, v) :: rest, b =>
      (match h : omLookup b k with
       | some v2 => valueBeq v v2
       | none => false) && objEntriesBeq rest b
termination_by a b => sizeOf a + sizeOf b
decreasing_by
  · have := omLookup_sizeOf h
    simp only [List.cons.sizeOf_spec, Prod.mk.sizeOf_spec]
    omega
  · simp only [List.cons.sizeOf_spec, Prod.mk.sizeOf_spec]; omega

end

mutual

/-- Does a `Value` tree contain a `Float NaN` leaf? -/
def Value.containsNaN : Value → Bool
  | .Float f => f.isNaN
  | .List l => listContainsNaN l
  | .Object o => objContainsNaN o
  | _ => false

/-- `containsNaN` over a list payload. -/
def listContainsNaN : List Value → Bool
  | [] => false
  | v :: rest => v.containsNaN || listContainsNaN rest

/-- `containsNaN` over an object payload. -/
def objContainsNaN : Entries → Bool
  | [] => false
  | (_, v) :: rest => v.containsNaN || objContainsNaN rest

end

/-- The variant tag of a `Value`. -/
def variantTag : Value → Nat
  | .Null => 0
  | .Int _ => 1
  | .Float _ => 2
  | .String _ => 3
  | .Boolean _ => 4
  | .List _ => 5
  | .Object _ => 6

/-- Two `Value`s are of the same variant. -/
def sameVariant (a b : Value) : Bool := variantTag a == variantTag b

-- OBJECT CONSTRUCTION (value.rs lines 62–67)

/-- An ordered key-value sequence with keys of an arbitrary string-like
type `K` (the `OrderMap<K, Value>` argument of `Value::object`). -/
abbrev KeyedEntries (K : Type) := List (K × Value)

/-- `OrderMap::insert` on an entry list: if the key is present, the entry
keeps its place and key and only its value is replaced; otherwise the new
entry is appended at the end (ordermap/indexmap insertion semantics). -/
def omInsert (m : Entries) (k : String) (v : Value) : Entries :=
  if (m.find? (fun p => p.1 == k)).isSome
  then m.map (fun p => if p.1 == k then (p.1, v) else p)
  else m ++ [(k, v)]

/-- `collect()` of a key-value iterator into an `OrderMap`: start empty and
insert each pair in iteration order. -/
def omCollect (l : Entries) : Entries :=
  l.foldl (fun m p => omInsert m p.1 p.2) []

/-- `Value::object` (value.rs lines 62–67): normalize every key through
`Into<String>` (here an explicit `into` function on an arbitrary key type
`K`) and collect the mapped pairs into an `OrderMap<String, Value>`. -/
def Value.object {K : Type} (into : K → Str) (o : KeyedEntries K) : Value :=
  .Object (omCollect (o.map (fun p => (into p.1, p.2))))

/-- Inserting a key absent from the map appends the entry at the end. -/
theorem omInsert_fresh {m : Entries} {k : String} {v : Value}
    (h : ∀ p ∈ m, p.1 ≠ k) : omInsert m k v = m ++ [(k, v)] := by
  have hnone : m.find? (fun p => p.1 == k) = none := by
    rw [List.find?_eq_none]
    intro p hp
    simpa using h p hp
  simp [omInsert, hnone]

/-- Collecting an entry list with pairwise distinct keys into an `OrderMap`
reproduces the list: accumulator-generalized form. -/
theorem omCollect_go_nodup : ∀ (l m : Entries),
    ((m ++ l).map Prod.fst).Nodup →
    l.foldl (fun acc p => omInsert acc p.1 p.2) m = m ++ l := by
  intro l
  induction l with
  | nil => intro m _; simp
  | cons p rest ih =>
    intro m h
    obtain ⟨k, v⟩ := p
    have hfresh : ∀ q ∈ m, q.1 ≠ k := by
      intro q hq
      simp only [List.map_append, List.nodup_append] at h
      have hdisj := h.2.2
      intro hqk
      exact hdisj (a := k) (by simpa [hqk] using List.mem_map_of_mem Prod.fst hq)
        (by simp)
    have hre : ((m ++ [(k, v)]) ++ rest).map Prod.fst = (m ++ (k, v) :: rest).map Prod.fst := by
      simp
    rw [List.foldl_cons, omInsert_fresh hfresh, ih (m ++ [(k, v)]) (by rw [hre]; exact h)]
    simp

/-- Collecting an entry list with pairwise distinct keys into an `OrderMap`
reproduces the list, in order. -/
theorem omCollect_nodup {l : Entries} (h : (l.map Prod.fst).Nodup) :
    omCollect l = l := by
  have := omCollect_go_nodup l [] (by simpa using h)
  simpa [omCollect] using this

-- GENERATED OBJECT TYPES (src/juniper_codegen/src/graphql_object/mod.rs)

/-- The outcome of invoking one user resolver: a value, or a user error
message (`Resolver faults ... converted to a field error`). -/
inductive FieldOutcome where
  | ok : Value → FieldOutcome
  | err : String → FieldOutcome

/-- A field of a generated GraphQL object, as carried by
`Definition::fields` (`field::Definition`): its schema name, whether it is
declared `async`, and its resolution outcome when invoked. -/
structure FieldDefn where
  name : String
  is_async : Bool
  outcome : FieldOutcome

/-- The `Definition` data (graphql_object/mod.rs lines 204–268) that the
generated trait implementations close over: the GraphQL type name, the
declared fields (in declaration order), and the implemented interfaces
(rendered to strings the way the codegen does with `quote!(#ty)`).  The
`interfaces` field of the Rust struct is a `HashSet`, whose iteration
order is arbitrary; it is embedded as a list together with theorems
quantifying over all permutations. -/
structure ObjectDefinition where
  name : String
  fields : List FieldDefn
  interfaces : List String

/-- The result of one generated `resolve_field`/`resolve_field_async`
call: a resolved value, a field error attached to the response, or an
engine panic (which unwinds and is not a user-facing field error).
Field errors are distinguishable by origin: `user` wraps a resolver's own
error, `engine` carries the engine's fixed diagnostic. -/
inductive ResolveResult where
  | value : Value → ResolveResult
  | fieldError : Bool → String → ResolveResult
  | enginePanic : String → ResolveResult

/-- Marker for `ResolveResult.fieldError`: the error was generated by the
engine (fixed diagnostic), not by a user resolver. -/
def fromEngine : Bool := true

/-- Marker for `ResolveResult.fieldError`: the error came from the user's
resolver. -/
def fromUser : Bool := false

/-- Map a resolver outcome into the execution result, as the generated
per-field match arms do: values pass through, resolver faults become
user-origin field errors. -/
def FieldOutcome.toResult : FieldOutcome → ResolveResult
  | .ok v => .value v
  | .err m => .fieldError fromUser m

/-- Modelled from the spec: the fixed diagnostic emitted for an unknown
field (`method_resolve_field_panic_no_field_tokens`, whose body lives in
`common/field`, not under `src/`).  The spec calls it "a field error with
a fixed diagnostic message distinguishable from user resolver errors". -/
def noFieldMessage (tyName fieldName : String) : String :=
  "Field " ++ fieldName ++ " not found on type " ++ tyName

/-- Modelled from the spec: the fatal engine diagnostic emitted when the
synchronous `resolve_field` is invoked on an `async` field
(`method_resolve_field_panic_async_field_tokens`, whose body lives in
`common/field`, not under `src/`).  The spec calls it "a fatal engine
error, signaling an integration bug". -/
def asyncFieldMessage (fieldName : String) : String :=
  "Tried to resolve async field " ++ fieldName ++ " on a synchronous path"

/-- The synchronous `resolve_field` generated by
`Definition::impl_graphql_value_tokens` (graphql_object/mod.rs lines
492–552): a match on the field name whose arms are, in order, the
synchronous fields' resolvers (`fields_resolvers`, async fields filtered
out), one arm panicking for the names of `async` fields
(`async_fields_panic`, present only when such fields exist), and a
catch-all for unknown fields (`no_field_panic`, modelled from the spec as
the engine's fixed-diagnostic field error). -/
def resolveField (d : ObjectDefinition) (fieldName : String) : ResolveResult :=
  match d.fields.find? (fun f => f.name == fieldName && !f.is_async) with
  | some f => f.outcome.toResult
  | none =>
    if d.fields.any (fun f => f.name == fieldName && f.is_async)
    then .enginePanic (asyncFieldMessage fieldName)
    else .fieldError fromEngine (noFieldMessage d.name fieldName)

/-- The asynchronous `resolve_field_async` generated by
`Definition::impl_graphql_value_async_tokens` (graphql_object/mod.rs lines
560–591): every declared field resolves (no async-panic arm exists on this
path), and the catch-all handles unknown fields as on the sync path. -/
def resolveFieldAsync (d : ObjectDefinition) (fieldName : String) : ResolveResult :=
  match d.fields.find? (fun f => f.name == fieldName) with
  | some f => f.outcome.toResult
  | none => .fieldError fromEngine (noFieldMessage d.name fieldName)

/-- Modelled from the spec: the engine's per-selection loop ("a raised
fault inside resolution is caught at the field boundary and converted into
a field error (isolation: one field's fault never aborts siblings)"); the
executor is not under `src/`.  Fields resolve one at a time in selection
order; a field error is recorded and the loop continues, while an engine
panic unwinds and aborts the remainder. -/
def resolveSelection (d : ObjectDefinition) : List String → List (String × ResolveResult)
  | [] => []
  | f :: rest =>
    match resolveField d f with
    | .enginePanic m => [(f, .enginePanic m)]
    | r => (f, r) :: resolveSelection d rest

/-- `GraphQLType::name` as generated by `impl_graphql_type_tokens`
(graphql_object/mod.rs lines 415–417): `Some(#name)`, ignoring the type
info (`TypeInfo = ()` for generated objects). -/
def graphQLTypeName (d : ObjectDefinition) (_info : Unit) : Option String :=
  some d.name

/-- `GraphQLValue::type_name` as generated by `impl_graphql_value_tokens`
(graphql_object/mod.rs lines 525–527): delegates to `GraphQLType::name`. -/
def graphQLValueTypeName (d : ObjectDefinition) (info : Unit) : Option String :=
  graphQLTypeName d info

/-- `GraphQLValue::concrete_type_name` as generated by
`impl_graphql_value_tokens` (graphql_object/mod.rs lines 543–549):
`#name.to_string()`, ignoring both the context and the type info. -/
def concreteTypeName {Ctx : Type} (d : ObjectDefinition) (_ctx : Ctx) (_info : Unit) : String :=
  d.name

/-- The interface order emitted into the generated `meta` code by
`impl_graphql_type_tokens` (graphql_object/mod.rs lines 396–409): the
`HashSet` contents, sorted by the `quote!`-rendered string of each
interface type (`sort_unstable_by` over `to_string()` — with a total
lexicographic order on the renderings, any correct sort produces this
list). -/
def sortedInterfaceOrder (rendered : List String) : List String :=
  List.insertionSort (fun a b => a ≤ b) rendered

-- INTROSPECTION (src/juniper/src/introspection/mod.rs)

/-- `IntrospectionFormat` (introspection/mod.rs lines 10–16): the desired
format of the canonical introspection query. -/
inductive IntrospectionFormat where
  | All : IntrospectionFormat
  | WithoutDescriptions : IntrospectionFormat
deriving DecidableEq

/-- `Default for IntrospectionFormat` (introspection/mod.rs lines 17–22). -/
def IntrospectionFormat.default : IntrospectionFormat := .All

/-- Modelled from the spec: the contents of `INTROSPECTION_QUERY`
(`include_str!("./query.graphql")`; the `.graphql` document file is not
under `src/`) — "the canonical GraphQL introspection query", the full
form of the two fixed conformance documents. -/
def INTROSPECTION_QUERY : String :=
  "canonical introspection query, full form (query.graphql)"

/-- Modelled from the spec: the contents of
`INTROSPECTION_QUERY_WITHOUT_DESCRIPTIONS`
(`include_str!("./query_without_descriptions.graphql")`; not under
`src/`) — the canonical query "without descriptions". -/
def INTROSPECTION_QUERY_WITHOUT_DESCRIPTIONS : String :=
  "canonical introspection query, description-free form (query_without_descriptions.graphql)"

/-- Modelled from the spec: the selection of the fixed query document by
format ("Two canonical forms: full (`All`) and description-free
(`WithoutDescriptions`)"); the dispatching `introspect` function is not
under `src/`. -/
def introspectionDocument : IntrospectionFormat → String
  | .All => INTROSPECTION_QUERY
  | .WithoutDescriptions => INTROSPECTION_QUERY_WITHOUT_DESCRIPTIONS

/-- A list with a NaN-containing element compares `false` against every
list under pairwise `valueBeq`. -/
theorem listContainsNaN_beq_false {l : List Value}
    (ihall : ∀ v ∈ l, v.containsNaN = true → ∀ w, valueBeq v w = false)
    (h : listContainsNaN l = true) : ∀ bs, listBeq l bs = false := by
  induction l with
  | nil => simp [listContainsNaN] at h
  | cons v rest ih =>
    intro bs
    cases bs with
    | nil => simp [listBeq]
    | cons b bs2 =>
      simp only [listContainsNaN, Bool.or_eq_true] at h
      rcases h with hv | hr
      · simp [listBeq, ihall v (by simp) hv b]
      · simp [listBeq, ih (fun u hu hc => ihall u (by simp [hu]) hc) hr bs2]

/-- An object entry list with a NaN-containing value fails the ordermap
entry sweep against every entry list. -/
theorem objContainsNaN_beq_false {o : Entries}
    (ihall : ∀ p ∈ o, p.2.containsNaN = true → ∀ w, valueBeq p.2 w = false)
    (h : objContainsNaN o = true) : ∀ b, objEntriesBeq o b = false := by
  induction o with
  | nil => simp [objContainsNaN] at h
  | cons p rest ih =>
    intro b
    obtain ⟨k, v⟩ := p
    simp only [objContainsNaN, Bool.or_eq_true] at h
    rcases h with hv | hr
    · simp only [objEntriesBeq]
      split
      · rename_i v2 heq
        simp [ihall (k, v) (by simp) hv v2]
      · simp
    · simp [objEntriesBeq, ih (fun q hq hc => ihall q (by simp [hq]) hc) hr b]

/-- A `Value` containing a `Float NaN` leaf compares `false` (under the
derived `PartialEq`) against every `Value`, itself included. -/
theorem containsNaN_beq_false :
    ∀ v : Value, v.containsNaN = true → ∀ w, valueBeq v w = false := by
  intro v
  induction v using Value.inductionOn with
  | hnull => intro h w; simp [Value.containsNaN] at h
  | hint i => intro h w; simp [Value.containsNaN] at h
  | hfloat f =>
    intro h w
    cases f with
    | NaN => cases w <;> simp [valueBeq, f64beq]
    | Finite q => simp [Value.containsNaN, F64.isNaN] at h
  | hstr s => intro h w; simp [Value.containsNaN] at h
  | hbool b => intro h w; simp [Value.containsNaN] at h
  | hlist l ih =>
    intro h w
    have hl : listContainsNaN l = true := by simpa [Value.containsNaN] using h
    cases w <;> simp [valueBeq]
    exact listContainsNaN_beq_false ih hl _
  | hobj o ih =>
    intro h w
    have ho : objContainsNaN o = true := by simpa [Value.containsNaN] using h
    cases w <;> simp [valueBeq]
    intro _
    exact objContainsNaN_beq_false ih ho _

/-- **C1.**  For every `Value` v, converting v to an `InputValue` with
`Value::to_input_value` — a total function — and then converting back to a
`Value` yields exactly v: only location metadata is dropped (every
`Spanning` node the conversion produces is unlocated), and the produced
`InputValue` never contains an `Enum` or `Variable` node. -/
theorem claim_c1_roundtrip (v : Value) :
    (Value.toInputValue v).toValue = some v
    ∧ (Value.toInputValue v).enumVarFree = true
    ∧ (Value.toInputValue v).allUnlocated = true :=
  ⟨toInputValue_toValue v, toInputValue_enumVarFree v, toInputValue_allUnlocated v⟩

/-- **C3.**  Every variant accessor of `Value` is total (never panics) and
returns `some` payload — or `true` for `is_null` — exactly when the value
is of the requested variant, and `none`/`false` on every other variant. -/
theorem claim_c3_accessors (v : Value) :
    (v.is_null = true ↔ v = .Null)
    ∧ (∀ f, v.as_float_value = some f ↔ v = .Float f)
    ∧ (∀ o, v.as_object_value = some o ↔ v = .Object o)
    ∧ (∀ o, v.as_mut_object_value = some o ↔ v = .Object o)
    ∧ (∀ l, v.as_list_value = some l ↔ v = .List l)
    ∧ (∀ s, v.as_string_value = some s ↔ v = .String s) := by
  cases v <;>
    simp [Value.is_null, Value.as_float_value, Value.as_object_value,
      Value.as_mut_object_value, Value.as_list_value, Value.as_string_value]

/-- **C7.**  For a generated object type with GraphQL name `d.name`, the
generated `concrete_type_name` returns exactly that name for every context
and type-info argument, and it agrees with the name reported by
`GraphQLType::name` (to which `GraphQLValue::type_name` also delegates) —
so a value reached through an interface-typed field reports its concrete
type's own name for `__typename`. -/
theorem claim_c7_concrete_type_name {Ctx : Type} (d : ObjectDefinition)
    (ctx : Ctx) (info : Unit) :
    concreteTypeName d ctx info = d.name
    ∧ graphQLTypeName d info = some d.name
    ∧ some (concreteTypeName d ctx info) = graphQLTypeName d info
    ∧ graphQLValueTypeName d info = graphQLTypeName d info :=
  ⟨rfl, rfl, rfl, rfl⟩

/-- **C8.**  `IntrospectionFormat` has exactly the two variants `All` and
`WithoutDescriptions` (and the two are distinct), and each variant selects
the corresponding fixed introspection query document. -/
theorem claim_c8_introspection_formats :
    (∀ x : IntrospectionFormat, x = .All ∨ x = .WithoutDescriptions)
    ∧ (IntrospectionFormat.All ≠ IntrospectionFormat.WithoutDescriptions)
    ∧ introspectionDocument .All = INTROSPECTION_QUERY
    ∧ introspectionDocument .WithoutDescriptions
        = INTROSPECTION_QUERY_WITHOUT_DESCRIPTIONS := by
  refine ⟨fun x => ?_, by decide, rfl, rfl⟩
  cases x
  · exact Or.inl rfl
  · exact Or.inr rfl

/-- **C9.**  Equality on `Value` (the derived `PartialEq`) is not
reflexive: `Value::Float(NaN)` is unequal to itself, and so is every
`Value` containing a NaN leaf (in particular any `List` or `Object`
containing one), because `f64` payloads are compared by IEEE-754
equality. -/
theorem claim_c9_nan_not_reflexive :
    valueBeq (.Float .NaN) (.Float .NaN) = false
    ∧ ∀ v : Value, v.containsNaN = true → valueBeq v v = false :=
  ⟨by simp [valueBeq, f64beq], fun v h => containsNaN_beq_false v h v⟩

/-- Witness for **C9** at a concrete input: a list containing `Float NaN`
is unequal to itself. -/
theorem claim_c9_nan_not_reflexive_witness :
    Value.containsNaN (.List [.Float .NaN]) = true
    ∧ valueBeq (.List [.Float .NaN]) (.List [.Float .NaN]) = false := by
  have h : Value.containsNaN (.List [.Float .NaN]) = true := by
    simp [Value.containsNaN, listContainsNaN, F64.isNaN]
  exact ⟨h, claim_c9_nan_not_reflexive.2 _ h⟩

/-- **C6.**  Equality on `Value` is structural with no implicit Int/Float
coercion: `From<i32>` produces `Value::Int`, `From<f64>` produces
`Value::Float`, an `Int` never compares equal to a `Float` (in either
order), and two `Value`s compare equal only when they are of the same
variant. -/
theorem claim_c6_no_coercion :
    (∀ i : I32, Value.fromInt i = .Int i)
    ∧ (∀ f : F64, Value.fromFloat f = .Float f)
    ∧ (∀ (i : I32) (f : F64),
        valueBeq (.Int i) (.Float f) = false ∧ valueBeq (.Float f) (.Int i) = false)
    ∧ (∀ v w : Value, valueBeq v w = true → sameVariant v w = true) := by
  refine ⟨fun i => rfl, fun f => rfl, fun i f => ⟨by simp [valueBeq], by simp [valueBeq]⟩, ?_⟩
  intro v w h
  cases v <;> cases w <;> simp [valueBeq] at h ⊢ <;> simp [sameVariant, variantTag]

/-- Witness for **C6** at a concrete input: two equal `Int`s compare equal
and are of the same variant. -/
theorem claim_c6_no_coercion_witness :
    valueBeq (.Int 1) (.Int 1) = true ∧ sameVariant (.Int 1) (.Int 1) = true := by
  have h : valueBeq (.Int 1) (.Int 1) = true := by simp [valueBeq]
  exact ⟨h, claim_c6_no_coercion.2.2.2 _ _ h⟩

/-- **C5.**  `Value::object` normalizes every key through `Into<String>`
and preserves the input's iteration order exactly: whenever the normalized
keys are pairwise distinct (so that ordered-map collection performs no
overwrite), the resulting `Object`'s entries are precisely the input pairs
with normalized keys, in input order — no reordering and no
deduplication. -/
theorem claim_c5_object_order {K : Type} (into : K → String) (o : KeyedEntries K)
    (h : (o.map (fun p => into p.1)).Nodup) :
    Value.object into o = .Object (o.map (fun p => (into p.1, p.2))) := by
  have hkeys : ((o.map (fun p => (into p.1, p.2))).map Prod.fst).Nodup := by
    simpa [List.map_map, Function.comp] using h
  simp [Value.object, omCollect_nodup hkeys]

/-- Witness for **C5** at a concrete input: a two-entry map with `String`
keys (and identity normalization) is reproduced in insertion order. -/
theorem claim_c5_object_order_witness :
    (([("a", Value.Int 1), ("b", Value.Null)] : KeyedEntries String).map
      (fun p => (fun s : String => s) p.1)).Nodup
    ∧ Value.object (fun s : String => s) [("a", Value.Int 1), ("b", Value.Null)]
        = .Object [("a", Value.Int 1), ("b", Value.Null)] := by
  have h : (([("a", Value.Int 1), ("b", Value.Null)] : KeyedEntries String).map
      (fun p => (fun s : String => s) p.1)).Nodup := by simp
  refine ⟨h, ?_⟩
  have := claim_c5_object_order (fun s : String => s) [("a", Value.Int 1), ("b", Value.Null)] h
  simpa using this

/-- **C10.**  The interface order emitted into a generated object's meta
code is deterministic and independent of the declaration order fed to the
attribute: for any two iteration orders of the same interface set (any two
permuted rendering lists), the emitted order is identical, and it is
sorted lexicographically by the types' rendered strings (being, as well, a
permutation of the input, so no interface is dropped or invented). -/
theorem claim_c10_interface_order (l1 l2 : List String) (h : l1.Perm l2) :
    sortedInterfaceOrder l1 = sortedInterfaceOrder l2
    ∧ (sortedInterfaceOrder l1).Sorted (fun a b => a ≤ b)
    ∧ (sortedInterfaceOrder l1).Perm l1 := by
  refine ⟨?_, List.sorted_insertionSort _ l1, List.perm_insertionSort _ l1⟩
  exact List.eq_of_perm_of_sorted
    ((List.perm_insertionSort _ l1).trans (h.trans (List.perm_insertionSort _ l2).symm))
    (List.sorted_insertionSort _ l1) (List.sorted_insertionSort _ l2)

/-- Witness for **C10** at a concrete input: the two orders of a two-element
interface set sort identically. -/
theorem claim_c10_interface_order_witness :
    (["B", "A"] : List String).Perm ["A", "B"]
    ∧ sortedInterfaceOrder ["B", "A"] = sortedInterfaceOrder ["A", "B"] := by
  have h : (["B", "A"] : List String).Perm ["A", "B"] := List.Perm.swap "A" "B" []
  exact ⟨h, (claim_c10_interface_order _ _ h).1⟩

/-- **C2.**  When the generated synchronous `resolve_field` is invoked
with a field name that matches none of the declared fields, the outcome is
a field error carrying the engine's fixed diagnostic message — not a user
resolver error and not an engine panic — and sibling field resolution is
not aborted: in a selection, the fields after the unknown one resolve
exactly as they would without it. -/
theorem claim_c2_unknown_field (d : ObjectDefinition) (fieldName : String)
    (h : ∀ g ∈ d.fields, g.name ≠ fieldName) :
    resolveField d fieldName = .fieldError fromEngine (noFieldMessage d.name fieldName)
    ∧ (∀ m, resolveField d fieldName ≠ .fieldError fromUser m)
    ∧ (∀ m, resolveField d fieldName ≠ .enginePanic m)
    ∧ ∀ rest, resolveSelection d (fieldName :: rest) =
        (fieldName, .fieldError fromEngine (noFieldMessage d.name fieldName))
          :: resolveSelection d rest := by
  have hfind : d.fields.find? (fun f => f.name == fieldName && !f.is_async) = none := by
    rw [List.find?_eq_none]
    intro g hg
    simp [h g hg]
  have hany : d.fields.any (fun f => f.name == fieldName && f.is_async) = false := by
    rw [List.any_eq_false]
    intro g hg
    simp [h g hg]
  have hres : resolveField d fieldName
      = .fieldError fromEngine (noFieldMessage d.name fieldName) := by
    simp [resolveField, hfind, hany]
  refine ⟨hres, ?_, ?_, ?_⟩
  · intro m hcontra
    rw [hres] at hcontra
    simp [fromEngine, fromUser] at hcontra
  · intro m hcontra
    rw [hres] at hcontra
    simp at hcontra
  · intro rest
    simp [resolveSelection, hres]

/-- Witness for **C2** at a concrete input: an unknown field on a one-field
object yields the engine's fixed no-field diagnostic. -/
theorem claim_c2_unknown_field_witness :
    (∀ g ∈ (ObjectDefinition.mk "Query" [⟨"hero", false, .ok .Null⟩] []).fields,
      g.name ≠ "unknown")
    ∧ resolveField ⟨"Query", [⟨"hero", false, .ok .Null⟩], []⟩ "unknown"
        = .fieldError fromEngine (noFieldMessage "Query" "unknown") := by
  have h : ∀ g ∈ (ObjectDefinition.mk "Query" [⟨"hero", false, .ok .Null⟩] []).fields,
      g.name ≠ "unknown" := by
    intro g hg
    simp only [List.mem_singleton] at hg
    subst hg
    decide
  exact ⟨h, (claim_c2_unknown_field _ _ h).1⟩

/-- **C4.**  For a generated object type declaring an async-only field
(every declared field of that name is `async`), invoking the synchronous
`resolve_field` with that field's name is an engine panic — an abort
distinct from a user-facing field error — while the asynchronous
`resolve_field_async` path never reaches a panic for any object and field
name, so the branch is unreachable when the caller resolves those fields
asynchronously. -/
theorem claim_c4_async_only_field (d : ObjectDefinition) (fieldName : String)
    (h1 : ∃ g ∈ d.fields, g.name = fieldName ∧ g.is_async = true)
    (h2 : ∀ g ∈ d.fields, g.name = fieldName → g.is_async = true) :
    resolveField d fieldName = .enginePanic (asyncFieldMessage fieldName)
    ∧ (∀ b m, resolveField d fieldName ≠ .fieldError b m)
    ∧ (∀ (d2 : ObjectDefinition) (f2 : String) (m : String),
        resolveFieldAsync d2 f2 ≠ .enginePanic m) := by
  have hfind : d.fields.find? (fun f => f.name == fieldName && !f.is_async) = none := by
    rw [List.find?_eq_none]
    intro g hg
    by_cases hn : g.name = fieldName
    · simp [h2 g hg hn]
    · simp [hn]
  have hany : d.fields.any (fun f => f.name == fieldName && f.is_async) = true := by
    rw [List.any_eq_true]
    obtain ⟨g, hg, hn, ha⟩ := h1
    exact ⟨g, hg, by simp [hn, ha]⟩
  have hres : resolveField d fieldName = .enginePanic (asyncFieldMessage fieldName) := by
    simp [resolveField, hfind, hany]
  refine ⟨hres, ?_, ?_⟩
  · intro b m hcontra
    rw [hres] at hcontra
    simp at hcontra
  · intro d2 f2 m
    unfold resolveFieldAsync
    cases d2.fields.find? (fun f => f.name == f2) with
    | none => simp
    | some f =>
      cases hf : f.outcome with
      | ok v => simp [FieldOutcome.toResult, hf]
      | err m2 => simp [FieldOutcome.toResult, hf]

/-- Witness for **C4** at a concrete input: a sync call on an object whose
only field is async panics, while the async path resolves it. -/
theorem claim_c4_async_only_field_witness :
    (∃ g ∈ (ObjectDefinition.mk "Subscription" [⟨"ticks", true, .ok .Null⟩] []).fields,
      g.name = "ticks" ∧ g.is_async = true)
    ∧ (∀ g ∈ (ObjectDefinition.mk "Subscription" [⟨"ticks", true, .ok .Null⟩] []).fields,
        g.name = "ticks" → g.is_async = true)
    ∧ resolveField ⟨"Subscription", [⟨"ticks", true, .ok .Null⟩], []⟩ "ticks"
        = .enginePanic (asyncFieldMessage "ticks") := by
  have h1 : ∃ g ∈ (ObjectDefinition.mk "Subscription" [⟨"ticks", true, .ok .Null⟩] []).fields,
      g.name = "ticks" ∧ g.is_async = true :=
    ⟨⟨"ticks", true, .ok .Null⟩, by simp, rfl, rfl⟩
  have h2 : ∀ g ∈ (ObjectDefinition.mk "Subscription" [⟨"ticks", true, .ok .Null⟩] []).fields,
      g.name = "ticks" → g.is_async = true := by
    intro g hg _
    simp only [List.mem_singleton] at hg
    subst hg
    rfl
  exact ⟨h1, h2, (claim_c4_async_only_field _ _ h1 h2).1⟩

end Juniper
